import Mathlib

/-!
Verification of the pkartor converter core (src/app.py, src/logs.py).

The program is a PyQt media-converter front end.  Its core logic is:
  * `ConverterThread.run` — spawns ffmpeg, scans stderr for a
    `Duration: HH:MM:SS.ff` line, then scans stdout for
    `out_time=HH:MM:SS.ff` lines, emitting progress/status/finished
    signals;
  * `MainWindow.convert_file` — computes a destination name by replacing
    the source extension and de-duplicating with `_1`, `_2`, … suffixes
    against the filesystem;
  * `MainWindow.handle_convert` — the submission entry point, which
    refuses to dispatch when no ffmpeg path was resolved;
  * `MainWindow.on_conversion_finished` — appends one log line per
    completed conversion.

The embedding below models Python floats by exact rationals (ℚ), the Qt
signals by an explicit list of emitted events, and the filesystem by a
list of existing path names.
-/

namespace Pkartor

/-! ### Regex-pattern scanning

`re.search(r"Duration: (\d{2}):(\d{2}):(\d{2}\.\d{2})", line)` and
`re.search(r"out_time=(\d{2}):(\d{2}):(\d{2}\.\d{2})", line)` scan the
line left to right for the literal prefix followed by the fixed-width
time pattern.  Since every piece of the pattern has fixed width there is
no backtracking: a faithful model tries a match at each start position,
leftmost first. -/

/-- `\d` of the regex: the characters `'0'`–`'9'` (code points 48–57). -/
def isDigitC (c : Char) : Bool := 48 ≤ c.toNat && c.toNat ≤ 57

/-- Numeric value of a digit character (`int` applied to one digit). -/
def digitVal (c : Char) : Nat := c.toNat - 48

/-- Match a literal character sequence at the head of the input,
returning the rest of the input on success. -/
def matchChars : List Char → List Char → Option (List Char)
  | [], cs => some cs
  | _ :: _, [] => none
  | p :: ps, c :: cs => if c = p then matchChars ps cs else none

/-- Match `(\d{2}):(\d{2}):(\d{2}\.\d{2})` at the head of the input.
Returns the numeric values of the four two-digit groups
(hours, minutes, integral seconds, centiseconds); the code converts the
first two groups with `int(...)` and the third (`SS.ff`) with
`float(...)`. -/
def matchTime : List Char → Option (Nat × Nat × Nat × Nat)
  | h1 :: h2 :: ':' :: m1 :: m2 :: ':' :: s1 :: s2 :: '.' :: f1 :: f2 :: _ =>
    if isDigitC h1 && isDigitC h2 && isDigitC m1 && isDigitC m2 &&
       isDigitC s1 && isDigitC s2 && isDigitC f1 && isDigitC f2 then
      some (10 * digitVal h1 + digitVal h2, 10 * digitVal m1 + digitVal m2,
            10 * digitVal s1 + digitVal s2, 10 * digitVal f1 + digitVal f2)
    else none
  | _ => none

/-- `re.search` for `<pat>(\d{2}):(\d{2}):(\d{2}\.\d{2})`: try a match at
every start position, leftmost first. -/
def searchTime (pat : List Char) : List Char → Option (Nat × Nat × Nat × Nat)
  | [] => none
  | c :: cs =>
    match (matchChars pat (c :: cs)).bind matchTime with
    | some r => some r
    | none => searchTime pat cs

/-- `(hours * 3600) + (minutes * 60) + seconds` where
`seconds = float("SS.ff") = SS + ff/100`.  This is the conversion applied
identically to `Duration` and `out_time` matches. -/
def timeVal (h m si sf : Nat) : ℚ :=
  (h : ℚ) * 3600 + (m : ℚ) * 60 + ((si : ℚ) + (sf : ℚ) / 100)

/-- Parse one stderr line for `Duration: HH:MM:SS.ff`, yielding total
seconds (app.py lines 71–76). -/
def parseDuration (line : String) : Option ℚ :=
  (searchTime "Duration: ".data line.data).map fun r =>
    timeVal r.1 r.2.1 r.2.2.1 r.2.2.2

/-- Parse one stdout line for `out_time=HH:MM:SS.ff`, yielding total
seconds (app.py lines 82–87). -/
def parseOutTime (line : String) : Option ℚ :=
  (searchTime "out_time=".data line.data).map fun r =>
    timeVal r.1 r.2.1 r.2.2.1 r.2.2.2

/-! ### Runner events (`ConverterThread.run`) -/

/-- The Qt signals the converter thread can emit: `status_updated`,
`progress_updated`, `conversion_finished`. -/
inductive Ev where
  | status (file msg : String)
  | progress (file : String) (p : ℤ)
  | finished (src dst : String)
deriving DecidableEq

/-- Python `int(...)` on a rational: truncation toward zero. -/
def pyInt (q : ℚ) : ℤ := if q < 0 then ⌈q⌉ else ⌊q⌋

/-- `min(99, int((current_time / duration) * 100))` (app.py line 88). -/
def progressVal (d t : ℚ) : ℤ := min 99 (pyInt (t / d * 100))

/-- The progress events emitted by the stdout-reading loop (app.py lines
81–89): one `progress_updated` per line matching `out_time=…`. -/
def convertingEvents (input : String) (d : ℚ) (stdoutLines : List String) : List Ev :=
  (stdoutLines.filterMap parseOutTime).map fun t => Ev.progress input (progressVal d t)

/-- The stderr loop (app.py lines 68–77): scan lines in order, stop at
the first `Duration:` match (`break`). -/
def findDuration : List String → Option ℚ
  | [] => none
  | l :: ls =>
    match parseDuration l with
    | some d => some d
    | none => findDuration ls

/-- Events emitted between start and process exit (app.py lines 79–89):
the `if duration:` truthiness guard requires the duration to be found
and nonzero. -/
def runningEvents (input : String) (stderrLines stdoutLines : List String) : List Ev :=
  match findDuration stderrLines with
  | some d =>
    if d ≠ 0 then
      Ev.status input "Converting..." :: convertingEvents input d stdoutLines
    else []
  | none => []

/-- Events emitted after `process.wait()` (app.py lines 92–98). -/
def terminalEvents (input output : String) (rc : ℤ) : List Ev :=
  if rc = 0 then
    [Ev.progress input 100, Ev.status input "Completed", Ev.finished input output]
  else
    [Ev.status input "Error"]

/-- All events one run of `ConverterThread.run` emits, given the child
process's stderr lines, stdout lines, and exit code. -/
def runEvents (input output : String) (stderrLines stdoutLines : List String)
    (rc : ℤ) : List Ev :=
  Ev.status input "Starting conversion..." ::
    (runningEvents input stderrLines stdoutLines ++ terminalEvents input output rc)

/-- Extract the percentage carried by a progress event. -/
def progressOf : Ev → Option ℤ
  | Ev.progress _ p => some p
  | _ => none

/-- Is this a `conversion_finished` event? -/
def isFinishedEv : Ev → Bool
  | Ev.finished _ _ => true
  | _ => false

/-! ### Completion log (`MainWindow.on_conversion_finished`) -/

/-- `f"{datetime.now()}: {input_file} -> {output_file}"` (app.py line 336). -/
def logLine (ts src dst : String) : String := ts ++ ": " ++ src ++ " -> " ++ dst

/-- The supervisor's reaction to a run's events, restricted to the log
file: each `conversion_finished` event appends exactly one line. -/
def appendLogs (ts : String) (log : List String) (evs : List Ev) : List String :=
  evs.foldl
    (fun acc e =>
      match e with
      | Ev.finished s d => acc ++ [logLine ts s d]
      | _ => acc)
    log

/-! ### Destination naming (`MainWindow.convert_file`, app.py lines 250–256)

```python
output_file = input_file.rsplit('.', 1)[0] + output_ext
base_output_file = output_file
counter = 1
while os.path.exists(output_file):
    output_file = f"{base_output_file.rsplit('.', 1)[0]}_{counter}.{output_ext.lstrip('.')}"
    counter += 1
```

The filesystem is modelled by the list of paths that exist at submission
time.  `str(counter)` is modelled by `natToDec`, plain decimal
rendering. -/

/-- The decimal digit character for `n < 10`. -/
def toDigitChar (n : Nat) : Char := Char.ofNat (48 + n)

/-- Decimal rendering of a natural number, fuelled so that it reduces by
kernel evaluation; `natToDec` supplies sufficient fuel. -/
def natToDecAux : Nat → Nat → List Char
  | 0, _ => []
  | fuel + 1, n =>
    if n < 10 then [toDigitChar n]
    else natToDecAux fuel (n / 10) ++ [toDigitChar (n % 10)]

/-- `str(n)` for a nonnegative Python int: decimal digits. -/
def natToDec (n : Nat) : List Char := natToDecAux (n + 1) n

/-- Read decimal digits back; used to show `natToDec` is injective. -/
def decVal (cs : List Char) : Nat := cs.foldl (fun a c => 10 * a + digitVal c) 0

/-- Helper for `rsplit('.', 1)`: on the reversed character list, drop
through the first `'.'`; `none` when there is no dot. -/
def dropExtRevAux : List Char → Option (List Char)
  | [] => none
  | c :: cs => if c = '.' then some cs else dropExtRevAux cs

/-- `s.rsplit('.', 1)[0]`: everything before the last dot, or the whole
string when it has no dot. -/
def stemStr (s : String) : String :=
  match dropExtRevAux s.data.reverse with
  | some r => ⟨r.reverse⟩
  | none => s

/-- `s.lstrip('.')`: remove every leading dot. -/
def lstripDot (s : String) : String := ⟨s.data.dropWhile (· = '.')⟩

/-- `f"{base_output_file.rsplit('.', 1)[0]}_{counter}.{output_ext.lstrip('.')}"`,
written at the character level (identical to string concatenation). -/
def candidate (base output_ext : String) (k : Nat) : String :=
  ⟨(stemStr base).data ++ ('_' :: natToDec k) ++ ('.' :: (lstripDot output_ext).data)⟩

/-- The `while os.path.exists(output_file)` loop from the point where the
first suffixed candidate has been computed: try `candidate k`,
`candidate (k+1)`, … .  The fuel bound (supplied by `convert_file_dest`)
is enough because candidates are pairwise distinct and the filesystem is
finite. -/
def dedupFrom (fs : List String) (base output_ext : String) : Nat → Nat → String
  | 0, k => candidate base output_ext k
  | fuel + 1, k =>
    if candidate base output_ext k ∈ fs then dedupFrom fs base output_ext fuel (k + 1)
    else candidate base output_ext k

/-- The destination path `convert_file` computes for `input_file` and
`output_ext` against filesystem contents `fs`. -/
def convert_file_dest (fs : List String) (input_file output_ext : String) : String :=
  if stemStr input_file ++ output_ext ∈ fs then
    dedupFrom fs (stemStr input_file ++ output_ext) output_ext (fs.length + 1) 1
  else stemStr input_file ++ output_ext

/-! ### Submission (`MainWindow.handle_convert`, app.py lines 273–303)

The GUI state relevant to submission: the queue (`list_widget` items),
the active conversions (`converter_threads` keys and `progress_frames`
keys, modelled as lists of source paths), the resolved tool path, and
the two combo-box selections (`currentText()`, the empty string when
nothing is selected). -/

structure AppState where
  queue : List String
  activeJobs : List String
  progressFrames : List String
  ffmpeg_path : Option String
  inputExt : String
  outputExt : String
deriving DecidableEq

/-- What one `handle_convert` call does besides mutating the state:
warn about a missing selection, refuse because ffmpeg is unavailable, or
dispatch a batch of (source, destination) jobs (each of which spawns one
converter thread / child process). -/
inductive SubmitOutcome where
  | warnedNoOutput
  | warnedNoInput
  | toolUnavailable
  | dispatched (jobs : List (String × String))
deriving DecidableEq

/-- Python `str.endswith`. -/
def endsWithPy (s suffix : String) : Bool := suffix.data.isSuffixOf s.data

/-- One `handle_convert` call.  Guards in source order: empty output
selection, empty input selection, unresolved ffmpeg path; then every
queued item ending in the input extension is dispatched (in reverse
queue order, matching the `reversed(items_to_remove)` loop) and removed
from the queue, and the input selection is cleared when the queue
empties.  `fs` is the filesystem at submission time. -/
def handle_convert (fs : List String) (s : AppState) : AppState × SubmitOutcome :=
  if s.outputExt = "" then (s, SubmitOutcome.warnedNoOutput)
  else if s.inputExt = "" then (s, SubmitOutcome.warnedNoInput)
  else if s.ffmpeg_path = none then (s, SubmitOutcome.toolUnavailable)
  else
    let toConvert := (s.queue.filter (fun f => endsWithPy f s.inputExt)).reverse
    let jobs := toConvert.map (fun f => (f, convert_file_dest fs f s.outputExt))
    let newQueue := s.queue.filter (fun f => !(endsWithPy f s.inputExt))
    ({ s with
        queue := newQueue
        activeJobs := s.activeJobs ++ toConvert
        progressFrames := s.progressFrames ++ toConvert
        inputExt := if newQueue = [] then "" else s.inputExt },
      SubmitOutcome.dispatched jobs)

/-! ### Helper lemmas about the pattern scanner -/

/-- The characters the time pattern accepts at a two-digit slot, one by
one, constructed canonically: `mkTimeChars h m si sf` is the text
`HH:MM:SS.ff` for the given component values (each below 100). -/
def mkTimeChars (h m si sf : Nat) : List Char :=
  [toDigitChar (h / 10), toDigitChar (h % 10), ':',
   toDigitChar (m / 10), toDigitChar (m % 10), ':',
   toDigitChar (si / 10), toDigitChar (si % 10), '.',
   toDigitChar (sf / 10), toDigitChar (sf % 10)]

lemma digitVal_lt_ten (c : Char) (h : isDigitC c = true) : digitVal c < 10 := by
  simp only [isDigitC, Bool.and_eq_true, decide_eq_true_eq] at h
  simp only [digitVal]
  omega

lemma matchTime_bounds (cs : List Char) (h m si sf : Nat)
    (hm : matchTime cs = some (h, m, si, sf)) :
    h < 100 ∧ m < 100 ∧ si < 100 ∧ sf < 100 := by
  unfold matchTime at hm
  split at hm
  · split at hm
    · rename_i a1 a2 b1 b2 d1 d2 e1 e2 rest hcond
      simp only [Bool.and_eq_true] at hcond
      obtain ⟨⟨⟨⟨⟨⟨⟨hA, hB⟩, hD⟩, hE⟩, hG⟩, hH⟩, hJ⟩, hK⟩ := hcond
      injection hm with hm
      simp only [Prod.mk.injEq] at hm
      obtain ⟨rfl, rfl, rfl, rfl⟩ := hm
      have := digitVal_lt_ten a1 hA
      have := digitVal_lt_ten a2 hB
      have := digitVal_lt_ten b1 hD
      have := digitVal_lt_ten b2 hE
      have := digitVal_lt_ten d1 hG
      have := digitVal_lt_ten d2 hH
      have := digitVal_lt_ten e1 hJ
      have := digitVal_lt_ten e2 hK
      exact ⟨by omega, by omega, by omega, by omega⟩
    · simp at hm
  · simp at hm

lemma searchTime_bounds (pat : List Char) :
    ∀ cs h m si sf, searchTime pat cs = some (h, m, si, sf) →
      h < 100 ∧ m < 100 ∧ si < 100 ∧ sf < 100 := by
  intro cs
  induction cs with
  | nil => intro h m si sf hs; simp [searchTime] at hs
  | cons c cs ih =>
    intro h m si sf hs
    rw [searchTime] at hs
    cases hb : (matchChars pat (c :: cs)).bind matchTime with
    | some r =>
      rw [hb] at hs
      injection hs with hs
      subst hs
      obtain ⟨rest, -, hmt⟩ := Option.bind_eq_some.mp hb
      exact matchTime_bounds rest _ _ _ _ hmt
    | none =>
      rw [hb] at hs
      exact ih h m si sf hs

lemma timeVal_nonneg (h m si sf : Nat) : 0 ≤ timeVal h m si sf := by
  unfold timeVal
  positivity

lemma parseDuration_nonneg (l : String) (d : ℚ) (h : parseDuration l = some d) :
    0 ≤ d := by
  obtain ⟨r, -, rfl⟩ := Option.map_eq_some'.mp h
  exact timeVal_nonneg ..

lemma parseOutTime_nonneg (l : String) (t : ℚ) (h : parseOutTime l = some t) :
    0 ≤ t := by
  obtain ⟨r, -, rfl⟩ := Option.map_eq_some'.mp h
  exact timeVal_nonneg ..

lemma findDuration_nonneg : ∀ ls d, findDuration ls = some d → 0 ≤ d := by
  intro ls
  induction ls with
  | nil => intro d h; simp [findDuration] at h
  | cons l ls ih =>
    intro d h
    rw [findDuration] at h
    cases hp : parseDuration l with
    | some d' =>
      rw [hp] at h
      injection h with h
      subst h
      exact parseDuration_nonneg l _ hp
    | none =>
      rw [hp] at h
      exact ih d h

lemma matchChars_self : ∀ pat rest : List Char, matchChars pat (pat ++ rest) = some rest := by
  intro pat
  induction pat with
  | nil => intro rest; rfl
  | cons p ps ih => intro rest; simp [matchChars, ih]

lemma toDigitChar_roundtrip :
    ∀ d, d < 10 → digitVal (toDigitChar d) = d ∧ isDigitC (toDigitChar d) = true := by
  decide

lemma matchTime_mkTimeChars (h m si sf : Nat) (hh : h < 100) (hm : m < 100)
    (hsi : si < 100) (hsf : sf < 100) (rest : List Char) :
    matchTime (mkTimeChars h m si sf ++ rest) = some (h, m, si, sf) := by
  have r1 := toDigitChar_roundtrip (h / 10) (by omega)
  have r2 := toDigitChar_roundtrip (h % 10) (by omega)
  have r3 := toDigitChar_roundtrip (m / 10) (by omega)
  have r4 := toDigitChar_roundtrip (m % 10) (by omega)
  have r5 := toDigitChar_roundtrip (si / 10) (by omega)
  have r6 := toDigitChar_roundtrip (si % 10) (by omega)
  have r7 := toDigitChar_roundtrip (sf / 10) (by omega)
  have r8 := toDigitChar_roundtrip (sf % 10) (by omega)
  simp only [mkTimeChars, List.cons_append, List.nil_append, matchTime,
    r1.1, r1.2, r2.1, r2.2, r3.1, r3.2, r4.1, r4.2, r5.1, r5.2, r6.1, r6.2,
    r7.1, r7.2, r8.1, r8.2, Bool.and_self, Bool.true_and, if_true,
    Option.some.injEq, Prod.mk.injEq]
  omega

lemma searchTime_at_head (p : Char) (ps rest : List Char) (r : Nat × Nat × Nat × Nat)
    (h : matchTime rest = some r) :
    searchTime (p :: ps) ((p :: ps) ++ rest) = some r := by
  have hmc : matchChars (p :: ps) ((p :: ps) ++ rest) = some rest := matchChars_self ..
  rw [List.cons_append, searchTime, ← List.cons_append, hmc]
  simp [h]

/-! ### Helper lemmas about progress values and events -/

lemma pyInt_eq_floor (q : ℚ) (h : 0 ≤ q) : pyInt q = ⌊q⌋ := if_neg (not_lt.mpr h)

lemma pyInt_mono {q1 q2 : ℚ} (h : q1 ≤ q2) : pyInt q1 ≤ pyInt q2 := by
  unfold pyInt
  split <;> split
  · exact Int.ceil_le_ceil h
  · rename_i h1 h2
    refine le_trans (Int.ceil_le.mpr ?_) (Int.floor_nonneg.mpr (not_lt.mp h2))
    exact_mod_cast le_of_lt h1
  · rename_i h1 h2
    exact absurd (lt_of_le_of_lt h h2) h1
  · exact Int.floor_le_floor h

lemma progressVal_le_99 (d t : ℚ) : progressVal d t ≤ 99 := min_le_left _ _

lemma progressVal_nonneg (d t : ℚ) (hd : 0 < d) (ht : 0 ≤ t) : 0 ≤ progressVal d t := by
  unfold progressVal
  have hq : 0 ≤ t / d * 100 := by positivity
  rw [pyInt_eq_floor _ hq]
  exact le_min (by norm_num) (Int.floor_nonneg.mpr hq)

lemma progressVal_mono (d : ℚ) (hd : 0 < d) {t1 t2 : ℚ} (h : t1 ≤ t2) :
    progressVal d t1 ≤ progressVal d t2 := by
  unfold progressVal
  refine min_le_min le_rfl (pyInt_mono ?_)
  gcongr

lemma filterMap_progressOf_map (input : String) (d : ℚ) (ts : List ℚ) :
    ((ts.map fun t => Ev.progress input (progressVal d t)).filterMap progressOf)
      = ts.map (progressVal d) := by
  induction ts with
  | nil => rfl
  | cons t ts ih => simp [List.filterMap_cons, progressOf, ih]

lemma filterMap_progressOf_converting (input : String) (d : ℚ) (ls : List String) :
    (convertingEvents input d ls).filterMap progressOf
      = (ls.filterMap parseOutTime).map (progressVal d) :=
  filterMap_progressOf_map input d (ls.filterMap parseOutTime)

lemma runningEvents_eq (input : String) (serr sout : List String) :
    runningEvents input serr sout = [] ∨
    ∃ d, findDuration serr = some d ∧ d ≠ 0 ∧ 0 < d ∧
      runningEvents input serr sout
        = Ev.status input "Converting..." :: convertingEvents input d sout := by
  unfold runningEvents
  cases hf : findDuration serr with
  | none => exact Or.inl rfl
  | some d =>
    by_cases hd : d = 0
    · exact Or.inl (by simp [hd])
    · have hpos : 0 < d := lt_of_le_of_ne (findDuration_nonneg serr d hf) (Ne.symm hd)
      exact Or.inr ⟨d, rfl, hd, hpos, by simp [hd]⟩

lemma runningEvents_no_finished (input : String) (serr sout : List String) :
    ∀ e ∈ runningEvents input serr sout, isFinishedEv e = false := by
  rcases runningEvents_eq input serr sout with h | ⟨d, -, -, -, h⟩ <;> rw [h]
  · intro e he; simp at he
  · intro e he
    rcases List.mem_cons.mp he with rfl | he
    · rfl
    · obtain ⟨t, -, rfl⟩ := List.mem_map.mp he
      rfl

lemma progress100_not_running (input : String) (serr sout : List String) :
    Ev.progress input 100 ∉ runningEvents input serr sout := by
  rcases runningEvents_eq input serr sout with h | ⟨d, -, -, hpos, h⟩ <;> rw [h]
  · simp
  · intro hmem
    rcases List.mem_cons.mp hmem with hc | hc
    · exact absurd hc (by simp)
    · obtain ⟨t, -, ht⟩ := List.mem_map.mp hc
      have hle := progressVal_le_99 d t
      simp only [Ev.progress.injEq] at ht
      obtain ⟨-, h2⟩ := ht
      omega

lemma appendLogs_append (ts : String) (log : List String) (l1 l2 : List Ev) :
    appendLogs ts log (l1 ++ l2) = appendLogs ts (appendLogs ts log l1) l2 := by
  simp [appendLogs, List.foldl_append]

lemma appendLogs_no_finished (ts : String) :
    ∀ (evs : List Ev) (log : List String),
      (∀ e ∈ evs, isFinishedEv e = false) → appendLogs ts log evs = log := by
  intro evs
  induction evs with
  | nil => intro log _; rfl
  | cons e evs ih =>
    intro log hall
    have he : isFinishedEv e = false := hall e (List.mem_cons_self ..)
    have hrest : ∀ e' ∈ evs, isFinishedEv e' = false :=
      fun e' h' => hall e' (List.mem_cons_of_mem _ h')
    cases e with
    | status f msg => exact (ih log hrest : _)
    | progress f p => exact (ih log hrest : _)
    | finished s d => simp [isFinishedEv] at he

/-! ### Helper lemmas about destination de-duplication -/

lemma decVal_append_digit (cs : List Char) (c : Char) :
    decVal (cs ++ [c]) = 10 * decVal cs + digitVal c := by
  simp [decVal, List.foldl_append]

lemma decVal_natToDecAux : ∀ fuel n, n < fuel → decVal (natToDecAux fuel n) = n := by
  intro fuel
  induction fuel with
  | zero => intro n h; omega
  | succ fuel ih =>
    intro n h
    rw [natToDecAux]
    by_cases h10 : n < 10
    · rw [if_pos h10]
      have hr := (toDigitChar_roundtrip n h10).1
      simp [decVal, hr]
    · rw [if_neg h10, decVal_append_digit]
      have hdiv : n / 10 < fuel := by
        have := Nat.div_lt_self (show 0 < n by omega) (show 1 < 10 by omega)
        omega
      rw [ih (n / 10) hdiv, (toDigitChar_roundtrip (n % 10) (Nat.mod_lt n (by omega))).1]
      omega

lemma natToDec_injective : Function.Injective natToDec := by
  intro a b h
  calc a = decVal (natToDec a) := (decVal_natToDecAux (a + 1) a (by omega)).symm
    _ = decVal (natToDec b) := by rw [h]
    _ = b := decVal_natToDecAux (b + 1) b (by omega)

lemma candidate_injective (base ext : String) : Function.Injective (candidate base ext) := by
  intro k1 k2 h
  apply natToDec_injective
  have hl : (stemStr base).data ++ ('_' :: natToDec k1) ++ ('.' :: (lstripDot ext).data)
      = (stemStr base).data ++ ('_' :: natToDec k2) ++ ('.' :: (lstripDot ext).data) :=
    congrArg String.data h
  rw [List.append_assoc, List.append_assoc] at hl
  have hl2 := List.append_cancel_left hl
  simp only [List.cons_append, List.cons.injEq, true_and] at hl2
  exact List.append_cancel_right hl2

lemma dedupFrom_spec (fs : List String) (base ext : String) :
    ∀ fuel k, (∃ j, k ≤ j ∧ j ≤ k + fuel ∧ candidate base ext j ∉ fs) →
      dedupFrom fs base ext fuel k ∉ fs ∧
      ∃ j, k ≤ j ∧ dedupFrom fs base ext fuel k = candidate base ext j ∧
        ∀ i, k ≤ i → i < j → candidate base ext i ∈ fs := by
  intro fuel
  induction fuel with
  | zero =>
    rintro k ⟨j, hkj, hjk, hfree⟩
    have hje : j = k := by omega
    subst hje
    rw [dedupFrom]
    exact ⟨hfree, j, le_rfl, rfl, fun i h1 h2 => absurd h1 (by omega)⟩
  | succ fuel ih =>
    rintro k ⟨j, hkj, hjk, hfree⟩
    rw [dedupFrom]
    by_cases hc : candidate base ext k ∈ fs
    · rw [if_pos hc]
      have hj' : k + 1 ≤ j := by
        rcases Nat.eq_or_lt_of_le hkj with heq | hlt
        · exact absurd (heq ▸ hc) hfree
        · omega
      obtain ⟨hne, j', hk'j', heq, hall⟩ := ih (k + 1) ⟨j, hj', by omega, hfree⟩
      refine ⟨hne, j', by omega, heq, ?_⟩
      intro i h1 h2
      rcases Nat.eq_or_lt_of_le h1 with heq' | hlt'
      · exact heq' ▸ hc
      · exact hall i (by omega) h2
    · rw [if_neg hc]
      exact ⟨hc, k, le_rfl, rfl, fun i h1 h2 => by omega⟩

lemma exists_free_candidate (fs : List String) (base ext : String) :
    ∃ j, 1 ≤ j ∧ j ≤ 1 + (fs.length + 1) ∧ candidate base ext j ∉ fs := by
  by_contra hall
  push_neg at hall
  set L : List String :=
    (List.range (fs.length + 2)).map (fun i => candidate base ext (i + 1)) with hL
  have hlen : L.length = fs.length + 2 := by simp [hL]
  have hinj : Function.Injective (fun i => candidate base ext (i + 1)) := by
    intro i j hij
    have := candidate_injective base ext hij
    omega
  have hnodup : L.Nodup := (List.nodup_range _).map hinj
  have hsub : L.toFinset ⊆ fs.toFinset := by
    intro x hx
    rw [List.mem_toFinset] at hx ⊢
    obtain ⟨i, hi, rfl⟩ := List.mem_map.mp hx
    have hi' : i < fs.length + 2 := List.mem_range.mp hi
    exact hall (i + 1) (by omega) (by omega)
  have h1 : L.toFinset.card = L.length := List.toFinset_card_of_nodup hnodup
  have h3 : fs.toFinset.card ≤ fs.length := fs.toFinset_card_le
  have h2 := Finset.card_le_card hsub
  omega

/-! ### The claims -/

/-- C2: for every submission the destination is the source path with its
extension replaced (`stemStr input ++ ext`); when that name already
exists at submission time, numeric suffixes `_1`, `_2`, … are tried in
order and the first non-existing one is used, so the returned
destination never exists; in particular, with `foo.mkv` on disk the
first submission of `foo.mp4 → .mkv` yields `foo_1.mkv`, and once
`foo_1.mkv` exists (the first conversion having created it) the second
yields `foo_2.mkv`. -/
theorem destination_dedup (fs : List String) (input_file output_ext : String) :
    convert_file_dest fs input_file output_ext ∉ fs
    ∧ (stemStr input_file ++ output_ext ∉ fs →
        convert_file_dest fs input_file output_ext = stemStr input_file ++ output_ext)
    ∧ (stemStr input_file ++ output_ext ∈ fs →
        ∃ k, 1 ≤ k ∧
          convert_file_dest fs input_file output_ext
            = candidate (stemStr input_file ++ output_ext) output_ext k
          ∧ ∀ j, 1 ≤ j → j < k →
              candidate (stemStr input_file ++ output_ext) output_ext j ∈ fs)
    ∧ convert_file_dest ["foo.mp4", "foo.mkv"] "foo.mp4" ".mkv" = "foo_1.mkv"
    ∧ convert_file_dest ["foo.mp4", "foo.mkv", "foo_1.mkv"] "foo.mp4" ".mkv" = "foo_2.mkv" := by
  refine ⟨?_, ?_, ?_, by decide, by decide⟩
  · unfold convert_file_dest
    by_cases hb : stemStr input_file ++ output_ext ∈ fs
    · rw [if_pos hb]
      exact (dedupFrom_spec fs _ output_ext (fs.length + 1) 1
        (exists_free_candidate fs _ output_ext)).1
    · rw [if_neg hb]
      exact hb
  · intro h
    unfold convert_file_dest
    rw [if_neg h]
  · intro h
    unfold convert_file_dest
    rw [if_pos h]
    obtain ⟨-, j, hj, heq, hall⟩ := dedupFrom_spec fs _ output_ext (fs.length + 1) 1
      (exists_free_candidate fs _ output_ext)
    exact ⟨j, hj, heq, hall⟩

/-- Witness for C2: in the two-file filesystem the base name `foo.mkv`
exists, and the theorem produces the first free suffixed name. -/
theorem destination_dedup_witness :
    stemStr "foo.mp4" ++ ".mkv" ∈ ["foo.mp4", "foo.mkv"]
    ∧ ∃ k, 1 ≤ k ∧
        convert_file_dest ["foo.mp4", "foo.mkv"] "foo.mp4" ".mkv"
          = candidate (stemStr "foo.mp4" ++ ".mkv") ".mkv" k
        ∧ ∀ j, 1 ≤ j → j < k →
            candidate (stemStr "foo.mp4" ++ ".mkv") ".mkv" j ∈ ["foo.mp4", "foo.mkv"] :=
  ⟨by decide, (destination_dedup ["foo.mp4", "foo.mkv"] "foo.mp4" ".mkv").2.2.1 (by decide)⟩

/-- C6: every successful `Duration:`/`out_time=` extraction yields
exactly `hours*3600 + minutes*60 + fractional-seconds` for two-digit
groups (each below 100, centisecond fraction `ff/100`); conversely every
well-formed `HH:MM:SS.ff` payload after the literal prefix parses to that
value; and lines matching neither pattern produce no event (the parsers
are total and return `none`, never an error). -/
theorem time_parse_correct :
    (∀ (line : String) (v : ℚ), parseDuration line = some v →
        ∃ h m si sf : Nat, h < 100 ∧ m < 100 ∧ si < 100 ∧ sf < 100 ∧
          v = (h : ℚ) * 3600 + (m : ℚ) * 60 + ((si : ℚ) + (sf : ℚ) / 100))
    ∧ (∀ (line : String) (v : ℚ), parseOutTime line = some v →
        ∃ h m si sf : Nat, h < 100 ∧ m < 100 ∧ si < 100 ∧ sf < 100 ∧
          v = (h : ℚ) * 3600 + (m : ℚ) * 60 + ((si : ℚ) + (sf : ℚ) / 100))
    ∧ (∀ h m si sf : Nat, h < 100 → m < 100 → si < 100 → sf < 100 →
        parseDuration ⟨"Duration: ".data ++ mkTimeChars h m si sf⟩
            = some ((h : ℚ) * 3600 + (m : ℚ) * 60 + ((si : ℚ) + (sf : ℚ) / 100))
        ∧ parseOutTime ⟨"out_time=".data ++ mkTimeChars h m si sf⟩
            = some ((h : ℚ) * 3600 + (m : ℚ) * 60 + ((si : ℚ) + (sf : ℚ) / 100)))
    ∧ parseDuration "frame=  100 fps= 25 q=28.0 size=     256kB time=00:00:04.00" = none
    ∧ parseOutTime "progress=continue" = none := by
  refine ⟨?_, ?_, ?_, by decide, by decide⟩
  · intro line v hv
    obtain ⟨r, hr, rfl⟩ := Option.map_eq_some'.mp hv
    obtain ⟨h1, h2, h3, h4⟩ := searchTime_bounds _ _ r.1 r.2.1 r.2.2.1 r.2.2.2 (by
      rw [hr])
    exact ⟨r.1, r.2.1, r.2.2.1, r.2.2.2, h1, h2, h3, h4, rfl⟩
  · intro line v hv
    obtain ⟨r, hr, rfl⟩ := Option.map_eq_some'.mp hv
    obtain ⟨h1, h2, h3, h4⟩ := searchTime_bounds _ _ r.1 r.2.1 r.2.2.1 r.2.2.2 (by
      rw [hr])
    exact ⟨r.1, r.2.1, r.2.2.1, r.2.2.2, h1, h2, h3, h4, rfl⟩
  · intro h m si sf hh hm hsi hsf
    have hmt : matchTime (mkTimeChars h m si sf) = some (h, m, si, sf) := by
      have := matchTime_mkTimeChars h m si sf hh hm hsi hsf []
      rwa [List.append_nil] at this
    constructor
    · have hpat : "Duration: ".data = 'D' :: "uration: ".data := by decide
      have hs : searchTime "Duration: ".data
          ("Duration: ".data ++ mkTimeChars h m si sf) = some (h, m, si, sf) := by
        rw [hpat]
        exact searchTime_at_head 'D' "uration: ".data _ _ hmt
      show (searchTime "Duration: ".data
          ("Duration: ".data ++ mkTimeChars h m si sf)).map _ = _
      rw [hs]
      rfl
    · have hpat : "out_time=".data = 'o' :: "ut_time=".data := by decide
      have hs : searchTime "out_time=".data
          ("out_time=".data ++ mkTimeChars h m si sf) = some (h, m, si, sf) := by
        rw [hpat]
        exact searchTime_at_head 'o' "ut_time=".data _ _ hmt
      show (searchTime "out_time=".data
          ("out_time=".data ++ mkTimeChars h m si sf)).map _ = _
      rw [hs]
      rfl

/-- Witness for C6: the canonical line for 01:02:03.45 parses to
3723.45 seconds. -/
theorem time_parse_correct_witness :
    parseDuration ⟨"Duration: ".data ++ mkTimeChars 1 2 3 45⟩
      = some ((1 : ℚ) * 3600 + (2 : ℚ) * 60 + ((3 : ℚ) + (45 : ℚ) / 100)) :=
  (time_parse_correct.2.2.1 1 2 3 45 (by norm_num) (by norm_num) (by norm_num)
    (by norm_num)).1

/-- C7: the stderr scan takes the duration from the first matching line
only: whatever diagnostic lines follow the first match, they are never
scanned and the extracted duration is unchanged. -/
theorem duration_first_match_only (pre : List String) (l : String) (post : List String)
    (d : ℚ) (hpre : ∀ l' ∈ pre, parseDuration l' = none)
    (hl : parseDuration l = some d) :
    findDuration (pre ++ l :: post) = some d := by
  induction pre with
  | nil =>
    rw [List.nil_append, findDuration, hl]
  | cons p pre ih =>
    rw [List.cons_append, findDuration, hpre p (List.mem_cons_self ..)]
    exact ih fun l' h' => hpre l' (List.mem_cons_of_mem _ h')

/-- Witness for C7: a later (larger) `Duration:` line does not change
the result. -/
theorem duration_first_match_only_witness :
    findDuration ["x", "Duration: 01:00:00.50", "Duration: 99:59:59.99"]
      = some (7201 / 2) := by
  have hs : searchTime "Duration: ".data "Duration: 01:00:00.50".data
      = some (1, 0, 0, 50) := by decide
  have hl : parseDuration "Duration: 01:00:00.50" = some (7201 / 2) := by
    show (searchTime "Duration: ".data "Duration: 01:00:00.50".data).map _ = _
    rw [hs]
    show some (timeVal 1 0 0 50) = _
    rw [timeVal]
    norm_num
  exact duration_first_match_only ["x"] "Duration: 01:00:00.50"
    ["Duration: 99:59:59.99"] (7201 / 2)
    (by intro l' h'
        simp only [List.mem_singleton] at h'
        subst h'
        decide)
    hl

lemma progressVal_eq_of_floor (d t : ℚ) (n : ℤ) (hq : 0 ≤ t / d * 100)
    (hf : ⌊t / d * 100⌋ = n) (hn : n ≤ 99) : progressVal d t = n := by
  rw [progressVal, pyInt_eq_floor _ hq, hf]
  exact min_eq_right hn

lemma progressVal_eq_99_of_floor (d t : ℚ) (n : ℤ) (hq : 0 ≤ t / d * 100)
    (hf : ⌊t / d * 100⌋ = n) (hn : 99 ≤ n) : progressVal d t = 99 := by
  rw [progressVal, pyInt_eq_floor _ hq, hf]
  exact min_eq_left hn

lemma parseOutTime_00 : parseOutTime "out_time=00:00:00.00" = some 0 := by
  have hs : searchTime "out_time=".data "out_time=00:00:00.00".data
      = some (0, 0, 0, 0) := by decide
  show (searchTime "out_time=".data "out_time=00:00:00.00".data).map _ = _
  rw [hs]
  show some (timeVal 0 0 0 0) = _
  rw [timeVal]
  norm_num

lemma parseOutTime_60 : parseOutTime "out_time=00:01:00.00" = some 60 := by
  have hs : searchTime "out_time=".data "out_time=00:01:00.00".data
      = some (0, 1, 0, 0) := by decide
  show (searchTime "out_time=".data "out_time=00:01:00.00".data).map _ = _
  rw [hs]
  show some (timeVal 0 1 0 0) = _
  rw [timeVal]
  norm_num

lemma parseOutTime_119 : parseOutTime "out_time=00:01:59.00" = some 119 := by
  have hs : searchTime "out_time=".data "out_time=00:01:59.00".data
      = some (0, 1, 59, 0) := by decide
  show (searchTime "out_time=".data "out_time=00:01:59.00".data).map _ = _
  rw [hs]
  show some (timeVal 0 1 59 0) = _
  rw [timeVal]
  norm_num

lemma parseOutTime_120 : parseOutTime "out_time=00:02:00.00" = some 120 := by
  have hs : searchTime "out_time=".data "out_time=00:02:00.00".data
      = some (0, 2, 0, 0) := by decide
  show (searchTime "out_time=".data "out_time=00:02:00.00".data).map _ = _
  rw [hs]
  show some (timeVal 0 2 0 0) = _
  rw [timeVal]
  norm_num

/-- C1: every progress percentage emitted while converting equals
`min(99, floor(current_time / duration * 100))` (Python `int` truncation
coincides with `floor` here because both operands are nonnegative), so
no value above 99 is ever emitted before the terminal signal; for
duration 120 s and `out_time` values 0, 60, 119, 120 the emitted
percentages are 0, 50, 99, 99. -/
theorem progress_formula_and_clamp (input : String) (d : ℚ) (hd : 0 < d)
    (lines : List String) :
    ((convertingEvents input d lines).filterMap progressOf
        = (lines.filterMap parseOutTime).map fun t => min 99 ⌊t / d * 100⌋)
    ∧ (∀ p ∈ (convertingEvents input d lines).filterMap progressOf, p ≤ 99)
    ∧ ((convertingEvents input 120
          ["out_time=00:00:00.00", "out_time=00:01:00.00",
           "out_time=00:01:59.00", "out_time=00:02:00.00"]).filterMap progressOf
        = [0, 50, 99, 99]) := by
  refine ⟨?_, ?_, ?_⟩
  · rw [filterMap_progressOf_converting]
    apply List.map_congr_left
    intro t ht
    obtain ⟨l0, -, hp⟩ := List.mem_filterMap.mp ht
    have htn : 0 ≤ t := parseOutTime_nonneg l0 t hp
    have hq : 0 ≤ t / d * 100 := by positivity
    rw [progressVal, pyInt_eq_floor _ hq]
  · intro p hp
    rw [filterMap_progressOf_converting] at hp
    obtain ⟨t, -, rfl⟩ := List.mem_map.mp hp
    exact progressVal_le_99 d t
  · rw [filterMap_progressOf_converting]
    have v0 : progressVal 120 0 = 0 :=
      progressVal_eq_of_floor 120 0 0 (by norm_num)
        (by rw [Int.floor_eq_iff]; norm_num) (by norm_num)
    have v60 : progressVal 120 60 = 50 :=
      progressVal_eq_of_floor 120 60 50 (by norm_num)
        (by rw [Int.floor_eq_iff]; norm_num) (by norm_num)
    have v119 : progressVal 120 119 = 99 :=
      progressVal_eq_of_floor 120 119 99 (by norm_num)
        (by rw [Int.floor_eq_iff]; norm_num) (by norm_num)
    have v120 : progressVal 120 120 = 99 :=
      progressVal_eq_99_of_floor 120 120 100 (by norm_num)
        (by rw [Int.floor_eq_iff]; norm_num) (by norm_num)
    simp [List.filterMap_cons, parseOutTime_00, parseOutTime_60, parseOutTime_119,
      parseOutTime_120, v0, v60, v119, v120]

/-- Witness for C1: the duration-120 scenario, with `0 < 120`
discharged. -/
theorem progress_formula_and_clamp_witness :
    (convertingEvents "a.mp4" 120
        ["out_time=00:00:00.00", "out_time=00:01:00.00",
         "out_time=00:01:59.00", "out_time=00:02:00.00"]).filterMap progressOf
      = [0, 50, 99, 99] :=
  (progress_formula_and_clamp "a.mp4" 120 (by norm_num) []).2.2

/-- C8: when no diagnostic line ever matches the duration pattern, the
running phase emits nothing at all — in particular zero
progress-percentage events — and the run goes straight from the starting
status to the terminal events chosen by the exit code. -/
theorem no_duration_no_progress (input output : String) (serr sout : List String)
    (rc : ℤ) (h : findDuration serr = none) :
    runningEvents input serr sout = []
    ∧ (runningEvents input serr sout).filterMap progressOf = []
    ∧ runEvents input output serr sout rc
        = Ev.status input "Starting conversion..." :: terminalEvents input output rc := by
  have h1 : runningEvents input serr sout = [] := by
    unfold runningEvents
    rw [h]
  refine ⟨h1, by rw [h1]; rfl, ?_⟩
  unfold runEvents
  rw [h1, List.nil_append]

/-- Witness for C8: a stderr stream with no `Duration:` line. -/
theorem no_duration_no_progress_witness :
    runningEvents "a.mp4" ["ffmpeg version 6.0", "Stream #0"] ["out_time=00:00:01.00"] = []
    ∧ runEvents "a.mp4" "a.mkv" ["ffmpeg version 6.0", "Stream #0"]
        ["out_time=00:00:01.00"] 0
      = Ev.status "a.mp4" "Starting conversion..."
          :: terminalEvents "a.mp4" "a.mkv" 0 := by
  have h := no_duration_no_progress "a.mp4" "a.mkv"
    ["ffmpeg version 6.0", "Stream #0"] ["out_time=00:00:01.00"] 0 (by decide)
  exact ⟨h.1, h.2.2⟩

/-- C9: per job the progress percentages emitted while running form a
monotonically non-decreasing sequence whenever the parsed `out_time`
values are non-decreasing, each such percentage lies in `[0, 99]`, and a
progress event carrying 100 occurs in the run exactly when the process
exits 0 (the terminal Completed transition). -/
theorem progress_monotone_bounded (input output : String) (serr sout : List String)
    (rc : ℤ) (hmono : List.Chain' (· ≤ ·) (sout.filterMap parseOutTime)) :
    List.Chain' (· ≤ ·) ((runningEvents input serr sout).filterMap progressOf)
    ∧ (∀ p ∈ (runningEvents input serr sout).filterMap progressOf, 0 ≤ p ∧ p ≤ 99)
    ∧ (Ev.progress input 100 ∈ runEvents input output serr sout rc ↔ rc = 0) := by
  have hbody : ∀ p ∈ (runningEvents input serr sout).filterMap progressOf,
      0 ≤ p ∧ p ≤ 99 := by
    rcases runningEvents_eq input serr sout with h | ⟨d, -, -, hpos, h⟩ <;> rw [h]
    · intro p hp
      simp at hp
    · intro p hp
      rw [show ((Ev.status input "Converting..." :: convertingEvents input d sout) :
          List Ev).filterMap progressOf
          = (convertingEvents input d sout).filterMap progressOf from rfl,
        filterMap_progressOf_converting] at hp
      obtain ⟨t, htm, rfl⟩ := List.mem_map.mp hp
      obtain ⟨l0, -, hpt⟩ := List.mem_filterMap.mp htm
      exact ⟨progressVal_nonneg d t hpos (parseOutTime_nonneg l0 t hpt),
        progressVal_le_99 d t⟩
  refine ⟨?_, hbody, ?_⟩
  · rcases runningEvents_eq input serr sout with h | ⟨d, -, -, hpos, h⟩ <;> rw [h]
    · simp
    · rw [show ((Ev.status input "Converting..." :: convertingEvents input d sout) :
          List Ev).filterMap progressOf
          = (convertingEvents input d sout).filterMap progressOf from rfl,
        filterMap_progressOf_converting]
      exact List.chain'_map_of_chain' _ (fun a b hab => progressVal_mono d hpos hab) hmono
  · constructor
    · intro hmem
      rcases List.mem_cons.mp hmem with hc | hc
      · exact absurd hc (by simp)
      rcases List.mem_append.mp hc with hr | ht
      · exact absurd hr (progress100_not_running input serr sout)
      by_contra hrc
      rw [terminalEvents, if_neg hrc] at ht
      simp at ht
    · intro hrc
      subst hrc
      apply List.mem_cons_of_mem
      apply List.mem_append_right
      rw [terminalEvents, if_pos rfl]
      exact List.mem_cons_self ..

/-- Witness for C9: the duration-120 run with a sorted `out_time` stream
and exit code 0. -/
theorem progress_monotone_bounded_witness :
    List.Chain' (· ≤ ·)
      ((runningEvents "a.mp4" ["Duration: 00:02:00.00"]
          ["out_time=00:00:00.00", "out_time=00:01:00.00"]).filterMap progressOf)
    ∧ (Ev.progress "a.mp4" 100
        ∈ runEvents "a.mp4" "a.mkv" ["Duration: 00:02:00.00"]
            ["out_time=00:00:00.00", "out_time=00:01:00.00"] 0 ↔ (0 : ℤ) = 0) := by
  have hmono : List.Chain' (· ≤ ·)
      (["out_time=00:00:00.00", "out_time=00:01:00.00"].filterMap parseOutTime) := by
    simp [List.filterMap_cons, parseOutTime_00, parseOutTime_60]
  have h := progress_monotone_bounded "a.mp4" "a.mkv" ["Duration: 00:02:00.00"]
    ["out_time=00:00:00.00", "out_time=00:01:00.00"] 0 hmono
  exact ⟨h.1, h.2.2⟩

/-- C10: a parsed duration of exactly zero (e.g. the line
`Duration: 00:00:00.00`) makes the `if duration:` truthiness guard skip
the whole progress loop, exactly as when no duration was found, and the
progress computation (with its division by the duration) is only ever
reached with a strictly positive duration, since parsed durations are
never negative. -/
theorem zero_duration_guard (input : String) (serr sout : List String) :
    (findDuration serr = some 0 → runningEvents input serr sout = [])
    ∧ (∀ d, findDuration serr = some d → 0 ≤ d)
    ∧ (∀ d, findDuration serr = some d → d ≠ 0 →
        0 < d ∧ runningEvents input serr sout
          = Ev.status input "Converting..." :: convertingEvents input d sout)
    ∧ parseDuration "Duration: 00:00:00.00" = some 0 := by
  refine ⟨?_, fun d h => findDuration_nonneg serr d h, ?_, ?_⟩
  · intro h
    unfold runningEvents
    rw [h]
    simp
  · intro d h hne
    refine ⟨lt_of_le_of_ne (findDuration_nonneg serr d h) (Ne.symm hne), ?_⟩
    unfold runningEvents
    rw [h]
    simp [hne]
  · have hs : searchTime "Duration: ".data "Duration: 00:00:00.00".data
        = some (0, 0, 0, 0) := by decide
    show (searchTime "Duration: ".data "Duration: 00:00:00.00".data).map _ = _
    rw [hs]
    show some (timeVal 0 0 0 0) = _
    rw [timeVal]
    norm_num

/-- Witness for C10: with exactly the all-zero duration line on stderr,
the running phase emits nothing. -/
theorem zero_duration_guard_witness :
    runningEvents "a.mp4" ["Duration: 00:00:00.00"] ["out_time=00:00:01.00"] = [] := by
  have hp : parseDuration "Duration: 00:00:00.00" = some 0 :=
    (zero_duration_guard "a.mp4" [] []).2.2.2
  have hf : findDuration ["Duration: 00:00:00.00"] = some 0 := by
    rw [findDuration, hp]
  exact (zero_duration_guard "a.mp4" ["Duration: 00:00:00.00"]
    ["out_time=00:00:01.00"]).1 hf

lemma filter_finished_running (input : String) (serr sout : List String) :
    (runningEvents input serr sout).filter isFinishedEv = [] := by
  rw [List.filter_eq_nil_iff]
  intro a ha
  simp [runningEvents_no_finished input serr sout a ha]

/-- C3: a run whose process exits 0 contains a progress-100 event, a
"Completed" status event, and exactly one completion event carrying the
(source, destination) pair; feeding the run's events to the supervisor's
log handler appends exactly one line, of the form
`<timestamp>: <source> -> <destination>`. -/
theorem exit_zero_completion (input output ts : String) (serr sout : List String)
    (log : List String) :
    (runEvents input output serr sout 0).filter isFinishedEv
        = [Ev.finished input output]
    ∧ Ev.progress input 100 ∈ runEvents input output serr sout 0
    ∧ Ev.status input "Completed" ∈ runEvents input output serr sout 0
    ∧ appendLogs ts log (runEvents input output serr sout 0)
        = log ++ [logLine ts input output]
    ∧ logLine ts input output = ts ++ ": " ++ input ++ " -> " ++ output := by
  have hterm : terminalEvents input output 0
      = [Ev.progress input 100, Ev.status input "Completed",
          Ev.finished input output] := by
    rw [terminalEvents, if_pos rfl]
  refine ⟨?_, ?_, ?_, ?_, rfl⟩
  · rw [runEvents, hterm]
    rw [show (Ev.status input "Starting conversion..." ::
        (runningEvents input serr sout ++
          [Ev.progress input 100, Ev.status input "Completed",
            Ev.finished input output])).filter isFinishedEv
        = (runningEvents input serr sout ++
            [Ev.progress input 100, Ev.status input "Completed",
              Ev.finished input output]).filter isFinishedEv from rfl,
      List.filter_append, filter_finished_running]
    rfl
  · apply List.mem_cons_of_mem
    apply List.mem_append_right
    rw [hterm]
    exact List.mem_cons_self ..
  · apply List.mem_cons_of_mem
    apply List.mem_append_right
    rw [hterm]
    simp
  · rw [runEvents]
    rw [show appendLogs ts log (Ev.status input "Starting conversion..." ::
        (runningEvents input serr sout ++ terminalEvents input output 0))
        = appendLogs ts log
            (runningEvents input serr sout ++ terminalEvents input output 0) from rfl,
      appendLogs_append,
      appendLogs_no_finished ts _ log (runningEvents_no_finished input serr sout),
      hterm]
    rfl

/-- C4: a run whose process exits non-zero emits the "Error" status,
contains no completion event, and appends nothing to the log; the runner
is a total function of the process outcome, so nothing is raised to the
caller. -/
theorem exit_nonzero_failure (input output ts : String) (serr sout : List String)
    (log : List String) (rc : ℤ) (h : rc ≠ 0) :
    Ev.status input "Error" ∈ runEvents input output serr sout rc
    ∧ (runEvents input output serr sout rc).filter isFinishedEv = []
    ∧ appendLogs ts log (runEvents input output serr sout rc) = log := by
  have hterm : terminalEvents input output rc = [Ev.status input "Error"] := by
    rw [terminalEvents, if_neg h]
  refine ⟨?_, ?_, ?_⟩
  · apply List.mem_cons_of_mem
    apply List.mem_append_right
    rw [hterm]
    exact List.mem_cons_self ..
  · rw [runEvents, hterm]
    rw [show (Ev.status input "Starting conversion..." ::
        (runningEvents input serr sout ++ [Ev.status input "Error"])).filter isFinishedEv
        = (runningEvents input serr sout ++
            [Ev.status input "Error"]).filter isFinishedEv from rfl,
      List.filter_append, filter_finished_running]
    rfl
  · rw [runEvents]
    rw [show appendLogs ts log (Ev.status input "Starting conversion..." ::
        (runningEvents input serr sout ++ terminalEvents input output rc))
        = appendLogs ts log
            (runningEvents input serr sout ++ terminalEvents input output rc) from rfl,
      appendLogs_append,
      appendLogs_no_finished ts _ log (runningEvents_no_finished input serr sout),
      hterm]
    rfl

/-- Witness for C4: exit code 1. -/
theorem exit_nonzero_failure_witness :
    Ev.status "a.mp4" "Error" ∈ runEvents "a.mp4" "a.mkv" [] [] 1
    ∧ (runEvents "a.mp4" "a.mkv" [] [] 1).filter isFinishedEv = []
    ∧ appendLogs "2024-01-01" ["old"] (runEvents "a.mp4" "a.mkv" [] [] 1) = ["old"] :=
  exit_nonzero_failure "a.mp4" "a.mkv" "2024-01-01" [] [] ["old"] 1 (by decide)

/-- C5: with the combo boxes holding a valid selection but the ffmpeg
path unresolved (`None`), `handle_convert` returns the tool-unavailable
error, leaves the whole state — queue, active job set, progress frames —
unchanged, and dispatches no jobs (hence spawns no threads and no
processes). -/
theorem submit_tool_unavailable (fs : List String) (s : AppState)
    (hout : s.outputExt ≠ "") (hin : s.inputExt ≠ "") (hff : s.ffmpeg_path = none) :
    handle_convert fs s = (s, SubmitOutcome.toolUnavailable)
    ∧ (handle_convert fs s).1.activeJobs = s.activeJobs
    ∧ (handle_convert fs s).1.queue = s.queue
    ∧ ∀ jobs, (handle_convert fs s).2 ≠ SubmitOutcome.dispatched jobs := by
  have h : handle_convert fs s = (s, SubmitOutcome.toolUnavailable) := by
    unfold handle_convert
    rw [if_neg hout, if_neg hin, if_pos hff]
  refine ⟨h, by rw [h], by rw [h], fun jobs => by rw [h]; simp⟩

/-- Witness for C5: a concrete state with a queued file and no resolved
tool path. -/
theorem submit_tool_unavailable_witness :
    handle_convert []
        ⟨["a.mp4"], [], [], none, ".mp4", ".mkv"⟩
      = (⟨["a.mp4"], [], [], none, ".mp4", ".mkv"⟩, SubmitOutcome.toolUnavailable) :=
  (submit_tool_unavailable [] ⟨["a.mp4"], [], [], none, ".mp4", ".mkv"⟩
    (by decide) (by decide) rfl).1

end Pkartor
